import Mathlib

/-!
Verification of the GEMLA genetic-algorithm engine: a shallow embedding of
the node lifecycle (`GeneticNodeWrapper::process_node`), the simulation tree
(`Tree`, `Gemla::increase_height`, `Gemla::merge_completed_nodes`,
`Gemla::replace_nodes`, `Gemla::get_unprocessed_node`) and the durable value
store (`FileLinked::from_file`, `FileLinked::mutate`), together with proofs
of the specified properties.
-/

namespace Gemla

/-- `GeneticState` from `gemla/src/core/genetic_node.rs`: the four lifecycle
states of a node. -/
inductive GeneticState where
  | Initialize
  | Simulate
  | Mutate
  | Finish
deriving DecidableEq, Repr

/-- `GeneticNodeContext` from `gemla/src/core/genetic_node.rs`. Uuids are
modelled as natural numbers. -/
structure GeneticNodeContext where
  generation : Nat
  max_generations : Nat
  id : Nat
deriving DecidableEq, Repr

/-- `GeneticNodeWrapper<T>` from `gemla/src/core/genetic_node.rs`: wraps an
optional user payload with the lifecycle state, generation counters and id.
`generation` and `max_generations` are `u64` in the source; we use `Nat`
and reduce modulo `2 ^ 64` at the one arithmetic operation (the generation
increment). -/
structure GeneticNodeWrapper (T : Type) where
  node : Option T
  state : GeneticState
  generation : Nat
  max_generations : Nat
  id : Nat
deriving DecidableEq, Repr

/-- `GeneticNodeWrapper::new(max_generations)`: empty payload, `Initialize`
state, generation 1. The fresh `Uuid::new_v4()` is modelled by an explicit
`id` argument. -/
def GeneticNodeWrapper.new (T : Type) (max_generations : Nat) (id : Nat) :
    GeneticNodeWrapper T :=
  { node := none, state := .Initialize, generation := 1, max_generations, id }

/-- `GeneticNodeWrapper::from(data, max_generations, id)`: pre-populated
wrapper in `Simulate` state at generation 1. (`from` is a Lean keyword, hence
the name `fromData`.) -/
def GeneticNodeWrapper.fromData {T : Type} (data : T) (max_generations : Nat)
    (id : Nat) : GeneticNodeWrapper T :=
  { node := some data, state := .Simulate, generation := 1, max_generations, id }

/-- The user-supplied `GeneticNode` trait (`initialize`, `simulate`, `mutate`,
`merge`), with in-place mutation modelled by returning the new payload and
fallibility by `Except`. The first field models the trait's `initialize`
method. -/
structure GeneticNodeImpl (T E : Type) where
  initFn : GeneticNodeContext → Except E T
  simulate : T → GeneticNodeContext → Except E T
  mutate : T → GeneticNodeContext → Except E T
  merge : T → T → Nat → Except E T

/-- Outcome classification for `process_node`: a user-callback error
(propagated with `?`) or the `panic!` arm for unreachable state/payload
combinations. -/
inductive ProcErr (E : Type) where
  | user : E → ProcErr E
  | logicAbort : ProcErr E
deriving DecidableEq, Repr

/-- The context built at the top of `process_node`. -/
def mkContext {T : Type} (w : GeneticNodeWrapper T) : GeneticNodeContext :=
  { generation := w.generation, max_generations := w.max_generations, id := w.id }

/-- `GeneticNodeWrapper::process_node` from `gemla/src/core/genetic_node.rs`
(lines 121-155): one state-machine step. The source mutates `self` and
returns `Ok(self.state)`; we return the updated wrapper (whose `.state` is
the returned state). The `u64` generation increment is taken modulo
`2 ^ 64`. -/
def processNode {T E : Type} (impl : GeneticNodeImpl T E)
    (w : GeneticNodeWrapper T) : Except (ProcErr E) (GeneticNodeWrapper T) :=
  let context := mkContext w
  match w.state, w.node with
  | .Initialize, _ =>
      match impl.initFn context with
      | .error e => .error (.user e)
      | .ok n => .ok { w with node := some n, state := .Simulate }
  | .Simulate, some n =>
      match impl.simulate n context with
      | .error e => .error (.user e)
      | .ok n' =>
          .ok { w with
                node := some n',
                state := if w.generation ≥ w.max_generations then .Finish
                         else .Mutate }
  | .Mutate, some n =>
      match impl.mutate n context with
      | .error e => .error (.user e)
      | .ok n' =>
          .ok { w with
                node := some n',
                generation := (w.generation + 1) % 2 ^ 64,
                state := .Simulate }
  | .Finish, some _ => .ok w
  | _, _ => .error .logicAbort

/-- The binary tree from `gemla/src/tree/mod.rs`: a value with optional left
and right children (`Option<Box<Tree<T>>>`). -/
inductive Tree (T : Type) where
  | mk (val : T) (left : Option (Tree T)) (right : Option (Tree T))

/-- `tree.val`. -/
def Tree.val {T : Type} : Tree T → T
  | .mk v _ _ => v

/-- `tree.left`. -/
def Tree.left {T : Type} : Tree T → Option (Tree T)
  | .mk _ l _ => l

/-- `tree.right`. -/
def Tree.right {T : Type} : Tree T → Option (Tree T)
  | .mk _ _ r => r

/-- Modelled from the spec: `Tree::height()` is called by
`Gemla::increase_height` but its definition is not among the repository's
files; the spec (§4.2) defines it as the longest root-to-leaf path with a
leaf counting 1. -/
def Tree.height {T : Type} : Tree T → Nat
  | .mk _ none none => 1
  | .mk _ (some l) none => 1 + l.height
  | .mk _ none (some r) => 1 + r.height
  | .mk _ (some l) (some r) => 1 + max l.height r.height

/-- Height of an optional tree, absent counting 0. -/
def heightO {T : Type} : Option (Tree T) → Nat
  | none => 0
  | some t => t.height

/-- `SimulationTree<T>` in `gemla/src/core/mod.rs`: a tree of wrapped nodes. -/
abbrev GTree (T : Type) := Tree (GeneticNodeWrapper T)

/-- Wrapping `u64` addition (release-mode Rust overflow semantics). -/
def u64add (a b : Nat) : Nat := (a + b) % 2 ^ 64

/-- Wrapping `u64` subtraction (release-mode Rust overflow semantics). -/
def u64sub (a b : Nat) : Nat := (a % 2 ^ 64 + (2 ^ 64 - b % 2 ^ 64)) % 2 ^ 64

/-- Wrapping `u64` multiplication (release-mode Rust overflow semantics). -/
def u64mul (a b : Nat) : Nat := a * b % 2 ^ 64

/-- The source's `tree.as_ref().map(|t| t.height() as u64).unwrap_or(0) +
amount - 1` at the call with the given `amount`: `as u64` truncates and the
`u64` sum and decrement wrap. -/
def leftBranchHeight {T : Type} (tree : Option (GTree T)) (amount : Nat) : Nat :=
  u64sub (u64add (heightO tree % 2 ^ 64) amount) 1

/-- `Gemla::increase_height(tree, config, amount)` from `gemla/src/core/mod.rs`
(lines 291-315): grows the tree by `amount` levels. Each level adds a root in
`Initialize` state with `max_generations = config.generations_per_height`
(`g` here), whose left child is the recursive result and whose right child is
a fresh leaf with `max_generations = left_branch_height * g`, omitted when
`left_branch_height = 0`. `left_branch_height` and the product are `u64`
arithmetic in the source; we model them with explicit wrapping (`% 2 ^ 64`,
release-mode semantics). Fresh `Uuid::new_v4()` ids are modelled by a
counter threaded through in source evaluation order (root id first, then the
left recursion, then the right leaf); the counter after allocation is
returned alongside the tree. -/
def increaseHeight {T : Type} (tree : Option (GTree T)) (g : Nat) :
    Nat → Nat → Option (GTree T) × Nat
  | 0, ctr => (tree, ctr)
  | amount + 1, ctr =>
      let lbh := leftBranchHeight tree (amount + 1)
      let rec1 := increaseHeight tree g amount (ctr + 1)
      if lbh > 0 then
        (some (.mk (GeneticNodeWrapper.new T g ctr) rec1.1
          (some (.mk (GeneticNodeWrapper.new T (u64mul lbh g) rec1.2) none none))),
         rec1.2 + 1)
      else
        (some (.mk (GeneticNodeWrapper.new T g ctr) rec1.1 none), rec1.2)

/-- Descend through `left` children `k` times (used to speak about "the node
`i` levels above the old root" after growth). -/
def leftDescend {T : Type} : Nat → Option (Tree T) → Option (Tree T)
  | 0, t => t
  | _ + 1, none => none
  | k + 1, some (.mk _ l _) => leftDescend k l

/-- All wrapper values of a tree, root first (the traversal order of
`Gemla::replace_nodes`). -/
def nodesOf {T : Type} : Tree T → List T
  | .mk v none none => v :: []
  | .mk v (some l) none => v :: nodesOf l
  | .mk v none (some r) => v :: nodesOf r
  | .mk v (some l) (some r) => v :: (nodesOf l ++ nodesOf r)

/-- Wrapper values of an optional tree. -/
def nodesOfO {T : Type} : Option (Tree T) → List T
  | none => []
  | some t => nodesOf t

/-- `nodes.iter().position(...)` followed by `nodes.remove(i)` in
`Gemla::replace_nodes`: the first element satisfying `p` together with the
remaining list, or `none` when no element matches. -/
def removeFirst {α : Type} (p : α → Bool) : List α → Option (α × List α)
  | [] => none
  | x :: xs =>
      if p x then some (x, xs)
      else
        match removeFirst p xs with
        | none => none
        | some (y, ys) => some (y, x :: ys)

/-- The `if let Some(i) = nodes.iter().position(...)` step of
`Gemla::replace_nodes`: the value to place at the current node together with
the remaining list. -/
def replaceVal {T : Type} (v : GeneticNodeWrapper T)
    (nodes : List (GeneticNodeWrapper T)) :
    GeneticNodeWrapper T × List (GeneticNodeWrapper T) :=
  match removeFirst (fun n => n.id == v.id) nodes with
  | some (n, rest) => (n, rest)
  | none => (v, nodes)

/-- `Gemla::replace_nodes(tree, nodes)` from `gemla/src/core/mod.rs`
(lines 274-289): replaces each tree value whose id matches a node in the
list by the first such node (removing it from the list), recursing left then
right; returns the updated tree together with the nodes that found no match
(the source's return value). -/
def replaceNodes {T : Type} :
    GTree T → List (GeneticNodeWrapper T) →
    GTree T × List (GeneticNodeWrapper T)
  | .mk v (some lt) (some rt), nodes =>
      let p0 := replaceVal v nodes
      let pl := replaceNodes lt p0.2
      let pr := replaceNodes rt pl.2
      (.mk p0.1 (some pl.1) (some pr.1), pr.2)
  | .mk v (some lt) none, nodes =>
      let p0 := replaceVal v nodes
      let pl := replaceNodes lt p0.2
      (.mk p0.1 (some pl.1) none, pl.2)
  | .mk v none (some rt), nodes =>
      let p0 := replaceVal v nodes
      let pr := replaceNodes rt p0.2
      (.mk p0.1 none (some pr.1), pr.2)
  | .mk v none none, nodes =>
      let p0 := replaceVal v nodes
      (.mk p0.1 none none, p0.2)

/-- `Gemla::merge_completed_nodes(tree)` from `gemla/src/core/mod.rs`
(lines 197-250), with `mrg` the user `GeneticNode::merge`. The source
mutates the tree in place and returns `Result<(), Error>`; we return the
tree after the mutations performed up to the first error together with that
error, so a failing merge leaves the earlier mutations in place exactly as
in the source. Note the source's `(Some(l), None)` completed-child arm
builds the copied wrapper but never assigns it to `tree.val`; the model
reproduces that (the tree is returned unchanged there). -/
def mergeCompletedNodes {T E : Type} (mrg : T → T → Nat → Except E T) :
    GTree T → GTree T × Option E
  | .mk v l r =>
      if v.state = .Initialize then
        match l, r with
        | some lt, some rt =>
            if lt.val.state = .Finish ∧ rt.val.state = .Finish then
              match lt.val.node, rt.val.node with
              | some ln, some rn =>
                  match mrg ln rn v.id with
                  | .ok m =>
                      (.mk (GeneticNodeWrapper.fromData m v.max_generations v.id)
                        (some lt) (some rt), none)
                  | .error e => (.mk v (some lt) (some rt), some e)
              | _, _ => (.mk v (some lt) (some rt), none)
            else
              let pl := mergeCompletedNodes mrg lt
              match pl.2 with
              | some e => (.mk v (some pl.1) (some rt), some e)
              | none =>
                  let pr := mergeCompletedNodes mrg rt
                  (.mk v (some pl.1) (some pr.1), pr.2)
        | some lt, none =>
            if lt.val.state = .Finish then
              (.mk v (some lt) none, none)
            else
              let pl := mergeCompletedNodes mrg lt
              (.mk v (some pl.1) none, pl.2)
        | none, some rt =>
            if rt.val.state = .Finish then
              match rt.val.node with
              | some rn =>
                  (.mk (GeneticNodeWrapper.fromData rn v.max_generations v.id)
                    none (some rt), none)
              | none => (.mk v none (some rt), none)
            else
              let pr := mergeCompletedNodes mrg rt
              (.mk v none (some pr.1), pr.2)
        | none, none => (.mk v none none, none)
      else (.mk v l r, none)

/-- `Gemla::get_unprocessed_node(tree)` from `gemla/src/core/mod.rs`
(lines 252-272), with `pids` the ids in the `threads` map: depth-first
search for the first node that is not `Finish`, not already pending, and
whose children (when both present) are both `Finish`. -/
def getUnprocessedNode {T : Type} (pids : List Nat) :
    GTree T → Option (GeneticNodeWrapper T)
  | .mk v l r =>
      if v.state ≠ .Finish ∧ v.id ∉ pids then
        match l, r with
        | some lt, some rt =>
            if lt.val.state = .Finish ∧ rt.val.state = .Finish then some v
            else
              match getUnprocessedNode pids lt with
              | some w => some w
              | none => getUnprocessedNode pids rt
        | some lt, none => getUnprocessedNode pids lt
        | none, some rt => getUnprocessedNode pids rt
        | none, none => some v
      else none

/-- `Gemla::is_completed(tree)`: the root's state is `Finish`. -/
def isCompleted {T : Type} (t : GTree T) : Bool :=
  t.val.state = .Finish

/-! ### The durable value store (`file_linked/src/lib.rs`) -/

/-- The two files a `FileLinked` store touches: the primary file and its
`.temp` sibling; contents are byte lists, `none` means the file is absent. -/
structure FsState where
  primary : Option (List Nat)
  temp : Option (List Nat)
deriving DecidableEq, Repr

/-- An error surfaced by the store: `File::open` on a missing file, or a
deserialization failure carrying the deserializer's error. -/
inductive FlError (E : Type) where
  | ioNotFound : FlError E
  | des : E → FlError E
deriving DecidableEq, Repr

/-- `File::open` followed by `bincode::deserialize_from`, with `des` the
deserializer. -/
def readAndDes {V E : Type} (des : List Nat → Except E V) :
    Option (List Nat) → Except (FlError E) V
  | none => .error .ioNotFound
  | some b =>
      match des b with
      | .ok v => .ok v
      | .error e => .error (.des e)

/-- `FileLinked::from_temp_file(temp_file_path, path)` from
`file_linked/src/lib.rs` (lines 387-405): open and deserialize the temp
file, then copy it over the primary and remove it. -/
def fromTempFile {V E : Type} (des : List Nat → Except E V) (fs : FsState) :
    Except (FlError E) (V × FsState) :=
  match readAndDes des fs.temp with
  | .error e => .error e
  | .ok v => .ok (v, { primary := fs.temp, temp := none })

/-- `FileLinked::from_file(path)` from `file_linked/src/lib.rs`
(lines 344-385): deserialize the primary file; on failure fall back to
`from_temp_file`, and when that fails too, surface the original primary
error (`map_err(|_| err)`). -/
def fromFile {V E : Type} (des : List Nat → Except E V) (fs : FsState) :
    Except (FlError E) (V × FsState) :=
  match readAndDes des fs.primary with
  | .ok v => .ok (v, fs)
  | .error err =>
      match fromTempFile des fs with
      | .ok vfs => .ok vfs
      | .error _ => .error err

/-- The temp sibling's file name, from `set_file_name(format!(".temp{}", ...))`
in `file_linked/src/lib.rs`. -/
def tempFileName (base : String) : String := ".temp" ++ base

/-- The in-memory part of a `FileLinked<V>` store that `mutate` touches. -/
structure FileLinked (V : Type) where
  val : V
deriving DecidableEq, Repr

/-- `FileLinked::mutate(op)` from `file_linked/src/lib.rs` (lines 228-234):
apply `op` to the held value, then persist (`write_data`, abstracted as
`persist`, which serializes the new value and can fail); the source returns
`Ok(result)` only when persistence succeeded, but `self.val` keeps the
mutated value either way. `op` returns the new value together with its
result `R`. -/
def FileLinked.mutate {V R E : Type} (persist : V → Except E Unit)
    (fl : FileLinked V) (op : V → V × R) : FileLinked V × Except E R :=
  let vr := op fl.val
  (⟨vr.1⟩,
    match persist vr.1 with
    | .ok _ => .ok vr.2
    | .error e => .error e)

/-- `GemlaConfig` from `gemla/src/core/mod.rs`. -/
structure GemlaConfig where
  generations_per_height : Nat
  overwrite : Bool
deriving DecidableEq, Repr

/-- `Gemla::new(path, config, data_format)` from `gemla/src/core/mod.rs`
(lines 80-99), restricted to the value the engine ends up storing: when the
backing file exists and `config.overwrite` is false the pair is loaded with
`FileLinked::from_file`; otherwise a fresh `(None, config)` pair is stored. -/
def new {T E : Type}
    (des : List Nat → Except E (Option (GTree T) × GemlaConfig))
    (fs : FsState) (config : GemlaConfig) :
    Except (FlError E) (Option (GTree T) × GemlaConfig) :=
  match fs.primary with
  | some _ =>
      if config.overwrite then .ok (none, config)
      else
        match fromFile des fs with
        | .ok vfs => .ok vfs.1
        | .error e => .error e
  | none => .ok (none, config)

/-- Structural induction principle for `Tree` (the nested `Option` children
keep Lean's default eliminator from being usable with `induction`). -/
def Tree.indP {T : Type} {motive : Tree T → Prop}
    (h : ∀ (v : T) (l r : Option (Tree T)),
        (∀ lt, l = some lt → motive lt) → (∀ rt, r = some rt → motive rt) →
        motive (.mk v l r)) :
    ∀ t, motive t
  | .mk v none none => h v none none (fun _ hh => nomatch hh) (fun _ hh => nomatch hh)
  | .mk v (some l) none =>
      h v (some l) none (fun lt hlt => by cases hlt; exact Tree.indP h l)
        (fun _ hh => nomatch hh)
  | .mk v none (some r) =>
      h v none (some r) (fun _ hh => nomatch hh)
        (fun rt hrt => by cases hrt; exact Tree.indP h r)
  | .mk v (some l) (some r) =>
      h v (some l) (some r) (fun lt hlt => by cases hlt; exact Tree.indP h l)
        (fun rt hrt => by cases hrt; exact Tree.indP h r)

/-! ### Concrete fixtures used by witnesses -/

/-- A concrete `GeneticNode` implementation mirroring the repository's
`TestState` test type: `simulate` increments a score, `mutate` is the
identity, `merge` keeps the maximum. -/
def natImpl : GeneticNodeImpl Nat Unit :=
  { initFn := fun _ => .ok 0,
    simulate := fun n _ => .ok (n + 1),
    mutate := fun n _ => .ok n,
    merge := fun a b _ => .ok (max a b) }

/-! ### Claim theorems -/

/-- C1: a wrapper in `Simulate` state with a `Some` payload, whose user
`simulate` callback succeeds, is processed successfully: the payload becomes
the result of exactly one `simulate` call on the old payload, generation,
id and max_generations are unchanged, and the new state is `Finish` when
`generation ≥ max_generations` and `Mutate` otherwise. -/
theorem processNode_simulate_ok {T E : Type} (impl : GeneticNodeImpl T E)
    (w : GeneticNodeWrapper T) (n n' : T)
    (hs : w.state = GeneticState.Simulate) (hn : w.node = some n)
    (hsim : impl.simulate n (mkContext w) = .ok n') :
    processNode impl w =
      .ok { node := some n',
            state := if w.generation ≥ w.max_generations then .Finish else .Mutate,
            generation := w.generation,
            max_generations := w.max_generations,
            id := w.id } := by
  obtain ⟨nd, st, gen, mx, i⟩ := w
  simp only at hs hn
  subst hs; subst hn
  simp only [mkContext] at hsim
  simp [processNode, mkContext, hsim]

/-- Witness for C1: a concrete `Simulate` wrapper at generation 1 of 2 whose
payload 5 becomes 6 and whose state becomes `Mutate`. -/
theorem processNode_simulate_ok_witness :
    processNode natImpl (GeneticNodeWrapper.fromData 5 2 9) =
      .ok { node := some 6, state := .Mutate, generation := 1,
            max_generations := 2, id := 9 } := by
  simpa using
    processNode_simulate_ok natImpl (GeneticNodeWrapper.fromData 5 2 9) 5 6 rfl rfl rfl

/-- C7 counterexample: at the concrete wrapper with state `Finish` and
payload `None`, `process_node` does not behave as a no-op: it falls through
to the `panic!` arm (modelled as `.error .logicAbort`), refuting the claim
that a `Finish` wrapper with either payload is processed without aborting. -/
theorem processNode_finish_none_aborts :
    processNode natImpl
      { node := none, state := .Finish, generation := 1,
        max_generations := 1, id := 0 } = .error .logicAbort := rfl

/-- C7 amended: a wrapper in `Finish` state with a `Some` payload is a
no-op for `process_node` (the wrapper is returned unchanged, so the
returned state is `Finish`); with payload `None` the `panic!` arm is hit
instead. -/
theorem processNode_finish_noop {T E : Type} (impl : GeneticNodeImpl T E)
    (w : GeneticNodeWrapper T) (hs : w.state = GeneticState.Finish) :
    (∀ n, w.node = some n → processNode impl w = .ok w) ∧
    (w.node = none → processNode impl w = .error .logicAbort) := by
  obtain ⟨nd, st, gen, mx, i⟩ := w
  simp only at hs
  subst hs
  cases nd <;> simp [processNode]

/-- Witness for the amended C7: a concrete `Finish` wrapper with payload 3
is returned unchanged. -/
theorem processNode_finish_noop_witness :
    processNode natImpl
      { node := some 3, state := .Finish, generation := 1,
        max_generations := 1, id := 0 } =
      .ok { node := some 3, state := .Finish, generation := 1,
            max_generations := 1, id := 0 } :=
  (processNode_finish_noop natImpl _ rfl).1 3 rfl

/-- C5: `mutate(op)` applies `op` to the held value exactly once (the new
in-memory value is the first component of one application of `op` to the
previous value, whether or not persistence succeeds), returns `op`'s result
on successful persistence, and surfaces the persistence error otherwise —
with the in-memory value still reflecting the mutation. -/
theorem fileLinked_mutate_spec {V R E : Type} (persist : V → Except E Unit)
    (fl : FileLinked V) (op : V → V × R) :
    (FileLinked.mutate persist fl op).1.val = (op fl.val).1 ∧
    (persist (op fl.val).1 = .ok () →
      (FileLinked.mutate persist fl op).2 = .ok (op fl.val).2) ∧
    (∀ e, persist (op fl.val).1 = .error e →
      (FileLinked.mutate persist fl op).2 = .error e) := by
  refine ⟨rfl, fun h => ?_, fun e h => ?_⟩ <;> simp [FileLinked.mutate, h]

/-- Witness for C5: with a persist function that always fails, `mutate`
still installs the mutated value 6 in memory and returns the error 42. -/
theorem fileLinked_mutate_spec_witness :
    (FileLinked.mutate (fun _ => Except.error 42) (⟨5⟩ : FileLinked Nat)
      (fun v => (v + 1, v))).1.val = 6 ∧
    (FileLinked.mutate (fun _ => Except.error 42) (⟨5⟩ : FileLinked Nat)
      (fun v => (v + 1, v))).2 = .error 42 :=
  ⟨(fileLinked_mutate_spec (fun _ => Except.error 42) ⟨5⟩ (fun v => (v + 1, v))).1,
   (fileLinked_mutate_spec (fun _ => Except.error 42) ⟨5⟩
      (fun v => (v + 1, v))).2.2 42 rfl⟩

/-- C4: loading returns the value deserialized from the primary file when
that succeeds (files untouched); when the primary fails but the temp sibling
deserializes, the temp contents are copied over the primary, the temp file
is removed, and the temp's value is returned; when both fail, the error is
the one from the primary file, not the temp's. -/
theorem fromFile_spec {V E : Type} (des : List Nat → Except E V) (fs : FsState) :
    (∀ v, readAndDes des fs.primary = .ok v → fromFile des fs = .ok (v, fs)) ∧
    (∀ e v, readAndDes des fs.primary = .error e →
      readAndDes des fs.temp = .ok v →
      fromFile des fs = .ok (v, { primary := fs.temp, temp := none })) ∧
    (∀ e e', readAndDes des fs.primary = .error e →
      readAndDes des fs.temp = .error e' →
      fromFile des fs = .error e) := by
  refine ⟨fun v h => ?_, fun e v h h' => ?_, fun e e' h h' => ?_⟩
  · simp [fromFile, h]
  · simp [fromFile, fromTempFile, h, h']
  · simp [fromFile, fromTempFile, h, h']

/-- Witness for C4: primary holding byte `[0]` fails to deserialize, the
temp holding `[1]` deserializes to 7, so loading returns 7 and the temp
contents replace the primary while the temp is removed. -/
theorem fromFile_spec_witness :
    fromFile (fun b => if b = [1] then Except.ok 7 else Except.error ())
        ⟨some [0], some [1]⟩ =
      .ok (7, ⟨some [1], none⟩) :=
  (fromFile_spec (fun b => if b = [1] then Except.ok 7 else Except.error ())
    ⟨some [0], some [1]⟩).2.1 (.des ()) 7 (by simp [readAndDes])
    (by simp [readAndDes])

/-- C10: when the backing file exists and `config.overwrite` is false,
`Gemla::new` stores exactly the `(tree, Config)` pair deserialized from the
file; the `GemlaConfig` argument is ignored, so two different non-overwrite
configs construct the same engine state. -/
theorem gemlaNew_loads_file {T E : Type}
    (des : List Nat → Except E (Option (GTree T) × GemlaConfig))
    (fs : FsState) (b : List Nat) (pair : Option (GTree T) × GemlaConfig)
    (c1 c2 : GemlaConfig) (hb : fs.primary = some b)
    (h1 : c1.overwrite = false) (h2 : c2.overwrite = false)
    (hdes : des b = .ok pair) :
    new des fs c1 = .ok pair ∧ new des fs c1 = new des fs c2 := by
  have hload : fromFile des fs = .ok (pair, fs) :=
    (fromFile_spec des fs).1 pair (by simp [readAndDes, hb, hdes])
  constructor <;> simp [new, hb, h1, h2, hload]

/-- Witness for C10: a file deserializing to the pair
`(none, {generations_per_height := 7, overwrite := true})` is loaded as-is
under a non-overwrite config with `generations_per_height = 1`. -/
theorem gemlaNew_loads_file_witness :
    new (T := Nat) (E := Unit)
        (fun _ => .ok (none, ⟨7, true⟩)) ⟨some [0], none⟩ ⟨1, false⟩ =
      .ok (none, ⟨7, true⟩) :=
  (gemlaNew_loads_file (fun _ => .ok (none, ⟨7, true⟩)) ⟨some [0], none⟩ [0]
    (none, ⟨7, true⟩) ⟨1, false⟩ ⟨2, false⟩ rfl rfl rfl rfl).1

/-- C6: evaluating the merge sweep at a root in `Initialize` state whose
sole child is a finished child with a `Some` payload. The source's
`(None, Some(r))` arm does copy the child into the parent
(`tree.val = GeneticNodeWrapper::from(...)`), but the mirrored
`(Some(l), None)` arm constructs the copied wrapper and discards it
(`mod.rs:221-231` lacks the `tree.val =` assignment), so with a left-only
child the root is returned unchanged, contradicting the claim (and the
source's own comment and `trace!("Copying node ...")`). -/
theorem mergeCompleted_left_child_bug :
    mergeCompletedNodes natImpl.merge
        (.mk (GeneticNodeWrapper.new Nat 2 0)
          (some (.mk { node := some 5, state := .Finish, generation := 1,
                       max_generations := 1, id := 1 } none none))
          none) =
      (.mk (GeneticNodeWrapper.new Nat 2 0)
        (some (.mk { node := some 5, state := .Finish, generation := 1,
                     max_generations := 1, id := 1 } none none))
        none, none) ∧
    mergeCompletedNodes natImpl.merge
        (.mk (GeneticNodeWrapper.new Nat 2 0) none
          (some (.mk { node := some 5, state := .Finish, generation := 1,
                       max_generations := 1, id := 1 } none none))) =
      (.mk (GeneticNodeWrapper.fromData 5 2 0) none
        (some (.mk { node := some 5, state := .Finish, generation := 1,
                     max_generations := 1, id := 1 } none none)), none) :=
  ⟨rfl, rfl⟩

/-! ### Heights -/

/-- Every tree has height at least 1 (a leaf counts 1). -/
theorem Tree.height_pos {T : Type} (t : Tree T) : 1 ≤ t.height := by
  match t with
  | .mk v none none => simp [Tree.height]
  | .mk v (some l) none => simp [Tree.height]
  | .mk v none (some r) => simp [Tree.height]
  | .mk v (some l) (some r) => simp [Tree.height]

/-- Height of a node in terms of its children's optional heights. -/
theorem height_mk {T : Type} (v : T) (l r : Option (Tree T)) :
    (Tree.mk v l r).height = 1 + max (heightO l) (heightO r) := by
  cases l <;> cases r <;> simp [Tree.height, heightO]

/-- An optional tree of height 0 is absent. -/
theorem heightO_eq_zero {T : Type} (x : Option (Tree T)) :
    heightO x = 0 ↔ x = none := by
  cases x with
  | none => simp [heightO]
  | some t =>
      have := Tree.height_pos t
      simp only [heightO]
      constructor
      · intro h; omega
      · intro h; exact absurd h (by simp)

/-- `increase_height` at amount 0 returns the tree unchanged. -/
theorem increaseHeight_zero {T : Type} (t : Option (GTree T)) (g ctr : Nat) :
    increaseHeight t g 0 ctr = (t, ctr) := rfl

/-- Unfolding of one growth level when the (wrapped) left branch height is
positive: the right child is a fresh leaf sized by the wrapped product
`left_branch_height * g`. -/
theorem increaseHeight_succ_pos {T : Type} (t : Option (GTree T)) (g s ctr : Nat)
    (h : 0 < leftBranchHeight t (s + 1)) :
    increaseHeight t g (s + 1) ctr =
      (some (.mk (GeneticNodeWrapper.new T g ctr)
        (increaseHeight t g s (ctr + 1)).1
        (some (.mk (GeneticNodeWrapper.new T (u64mul (leftBranchHeight t (s + 1)) g)
          (increaseHeight t g s (ctr + 1)).2) none none))),
       (increaseHeight t g s (ctr + 1)).2 + 1) := by
  simp only [increaseHeight]
  rw [if_pos h]

/-- Unfolding of one growth level when the (wrapped) left branch height is
zero: the right child is omitted. -/
theorem increaseHeight_succ_zero {T : Type} (t : Option (GTree T)) (g s ctr : Nat)
    (h : leftBranchHeight t (s + 1) = 0) :
    increaseHeight t g (s + 1) ctr =
      (some (.mk (GeneticNodeWrapper.new T g ctr)
        (increaseHeight t g s (ctr + 1)).1 none),
       (increaseHeight t g s (ctr + 1)).2) := by
  simp only [increaseHeight]
  rw [if_neg (by omega)]

/-- The bottom growth level over an absent tree has left branch height 0. -/
theorem leftBranchHeight_none_one {T : Type} :
    leftBranchHeight (T := T) none 1 = 0 := by
  simp [leftBranchHeight, u64sub, u64add, heightO]

/-- First component of growth by zero levels. -/
theorem increaseHeight_zero_fst {T : Type} (t : Option (GTree T)) (g ctr : Nat) :
    (increaseHeight t g 0 ctr).1 = t := rfl

/-- `heightO` over a present tree. -/
theorem heightO_some {T : Type} (t0 : Tree T) : heightO (some t0) = t0.height := rfl

/-- One growth level in one shot: a new root over the recursive left child
and a right child that is absent or a fresh height-at-most-1 leaf (absent
exactly when the wrapped left branch height is 0). -/
theorem increaseHeight_fst_succ {T : Type} (t : Option (GTree T)) (g s ctr : Nat) :
    ∃ r : Option (GTree T), heightO r ≤ 1 ∧
      (increaseHeight t g (s + 1) ctr).1 =
        some (.mk (GeneticNodeWrapper.new T g ctr)
          (increaseHeight t g s (ctr + 1)).1 r) ∧
      (leftBranchHeight t (s + 1) = 0 → r = none) := by
  by_cases hz : leftBranchHeight t (s + 1) = 0
  · refine ⟨none, by simp [heightO], ?_, fun _ => rfl⟩
    rw [increaseHeight_succ_zero t g s ctr hz]
  · refine ⟨some (.mk (GeneticNodeWrapper.new T
        (u64mul (leftBranchHeight t (s + 1)) g)
        (increaseHeight t g s (ctr + 1)).2) none none),
      by simp [heightO, Tree.height], ?_, fun h => absurd h hz⟩
    rw [increaseHeight_succ_pos t g s ctr (by omega)]

/-- One growth level adds exactly one to the height (whether or not the
fresh right leaf is present, since a height-1 leaf never dominates). -/
theorem increaseHeight_height_succ {T : Type} (t : Option (GTree T)) (g : Nat) :
    ∀ (s ctr : Nat), heightO (increaseHeight t g (s + 1) ctr).1 = heightO t + (s + 1) := by
  intro s
  induction s with
  | zero =>
      intro ctr
      obtain ⟨r, hr, heq, hz⟩ := increaseHeight_fst_succ t g 0 ctr
      rw [heq, increaseHeight_zero_fst]
      cases t with
      | none =>
          rw [hz leftBranchHeight_none_one, heightO_some, height_mk]
          simp [heightO]
      | some t0 =>
          have ht0 := Tree.height_pos t0
          rw [heightO_some, height_mk,
            Nat.max_eq_left (hr.trans (by rw [heightO_some]; exact ht0))]
          rw [heightO_some]
          omega
  | succ k ih =>
      intro ctr
      obtain ⟨r, hr, heq, _⟩ := increaseHeight_fst_succ t g (k + 1) ctr
      have hrec := ih (ctr + 1)
      rw [heq, heightO_some, height_mk,
        Nat.max_eq_left (hr.trans (by omega))]
      omega

/-- The merge sweep only rewrites node values: the tree's height is
unchanged. -/
theorem mergeCompleted_height {T E : Type} (mrg : T → T → Nat → Except E T) :
    ∀ t : GTree T, (mergeCompletedNodes mrg t).1.height = t.height := by
  intro t
  induction t using Tree.indP with
  | h v l r ihl ihr =>
    unfold mergeCompletedNodes
    by_cases hv : v.state = GeneticState.Initialize
    · rw [if_pos hv]
      cases l with
      | none =>
          cases r with
          | none => rfl
          | some rt =>
              dsimp only
              by_cases hf : rt.val.state = GeneticState.Finish
              · rw [if_pos hf]
                cases rt.val.node <;> simp [height_mk]
              · rw [if_neg hf]
                simp [height_mk, heightO, ihr rt rfl]
      | some lt =>
          cases r with
          | none =>
              dsimp only
              by_cases hf : lt.val.state = GeneticState.Finish
              · rw [if_pos hf]
              · rw [if_neg hf]
                simp [height_mk, heightO, ihl lt rfl]
          | some rt =>
              dsimp only
              by_cases hf : lt.val.state = GeneticState.Finish ∧
                  rt.val.state = GeneticState.Finish
              · rw [if_pos hf]
                cases lt.val.node <;> cases rt.val.node <;>
                  simp [height_mk, heightO] <;>
                  split <;> simp [height_mk, heightO]
              · rw [if_neg hf]
                rcases hm : (mergeCompletedNodes mrg lt).2 with _ | e <;>
                  simp [hm, height_mk, heightO, ihl lt rfl, ihr rt rfl]
    · rw [if_neg hv]

/-- Write-back only rewrites node values: the tree's height is unchanged. -/
theorem replaceNodes_height {T : Type} :
    ∀ (t : GTree T) (ns : List (GeneticNodeWrapper T)),
      (replaceNodes t ns).1.height = t.height := by
  intro t
  induction t using Tree.indP with
  | h v l r ihl ihr =>
    intro ns
    cases l with
    | none =>
        cases r with
        | none => simp [replaceNodes, height_mk]
        | some rt => simp [replaceNodes, height_mk, heightO, ihr rt rfl]
    | some lt =>
        cases r with
        | none => simp [replaceNodes, height_mk, heightO, ihl lt rfl]
        | some rt =>
            simp [replaceNodes, height_mk, heightO, ihl lt rfl, ihr rt rfl]

/-- C3: growing a (possibly absent) tree by `steps ≥ 1` levels yields height
`height(t) + steps`; in particular growth from the empty tree gives height
`steps`, and two successive growths add `s1 + s2`. The merge sweep and the
write-back — the only other tree operations an engine run performs between
growths — preserve the height, so the heights seen by `simulate` are those
of `increase_height`. -/
theorem increaseHeight_adds_height {T E : Type} :
    (∀ (t : Option (GTree T)) (g steps ctr : Nat), 1 ≤ steps →
      heightO (increaseHeight t g steps ctr).1 = heightO t + steps) ∧
    (∀ (g steps ctr : Nat), 1 ≤ steps →
      heightO (increaseHeight (T := T) none g steps ctr).1 = steps) ∧
    (∀ (t : Option (GTree T)) (g s1 s2 c1 c2 : Nat), 1 ≤ s1 → 1 ≤ s2 →
      heightO (increaseHeight (increaseHeight t g s1 c1).1 g s2 c2).1 =
        heightO t + s1 + s2) ∧
    (∀ (mrg : T → T → Nat → Except E T) (t : GTree T),
      (mergeCompletedNodes mrg t).1.height = t.height) ∧
    (∀ (t : GTree T) (ns : List (GeneticNodeWrapper T)),
      (replaceNodes t ns).1.height = t.height) := by
  have main : ∀ (t : Option (GTree T)) (g steps ctr : Nat), 1 ≤ steps →
      heightO (increaseHeight t g steps ctr).1 = heightO t + steps := by
    intro t g steps ctr h
    obtain ⟨s, rfl⟩ : ∃ s, steps = s + 1 := ⟨steps - 1, by omega⟩
    exact increaseHeight_height_succ t g s ctr
  refine ⟨main, ?_, ?_, mergeCompleted_height, replaceNodes_height⟩
  · intro g steps ctr h
    simpa [heightO] using main none g steps ctr h
  · intro t g s1 s2 c1 c2 h1 h2
    rw [main _ g s2 c2 h2, main t g s1 c1 h1]

/-- Witness for C3: growing the empty tree by 2 levels (then by 1 more)
yields heights 2 and 3. -/
theorem increaseHeight_adds_height_witness :
    heightO (increaseHeight (T := Nat) none 1 2 0).1 = 2 ∧
    heightO (increaseHeight (increaseHeight (T := Nat) none 1 2 0).1 1 1 10).1 = 0 + 2 + 1 :=
  ⟨(increaseHeight_adds_height (T := Nat) (E := Unit)).2.1 1 2 0 (by decide),
   (increaseHeight_adds_height (T := Nat) (E := Unit)).2.2.1 none 1 2 1 0 10
     (by decide) (by decide)⟩

/-- The id counter never decreases across a growth call. -/
theorem increaseHeight_ctr_le {T : Type} (t : Option (GTree T)) (g : Nat) :
    ∀ (s c : Nat), c ≤ (increaseHeight t g s c).2 := by
  intro s
  induction s with
  | zero => intro c; exact le_refl c
  | succ k ih =>
      intro c
      by_cases hz : leftBranchHeight t (k + 1) = 0
      · rw [increaseHeight_succ_zero t g k c hz]
        have := ih (c + 1)
        omega
      · rw [increaseHeight_succ_pos t g k c (by omega)]
        have := ih (c + 1)
        simp only
        omega

/-- Descending `j ≤ k` left edges into a `k`-level growth lands on the
`(k - j)`-level growth of the same old tree (with the counter advanced by
`j`). -/
theorem leftDescend_increase {T : Type} (t : Option (GTree T)) (g : Nat) :
    ∀ (j k c : Nat), j ≤ k →
      leftDescend j (increaseHeight t g k c).1 =
        (increaseHeight t g (k - j) (c + j)).1 := by
  intro j
  induction j with
  | zero => intro k c _; simp [leftDescend]
  | succ j ih =>
      intro k c hjk
      obtain ⟨k', rfl⟩ : ∃ k', k = k' + 1 := ⟨k - 1, by omega⟩
      have hstep : leftDescend (j + 1) (increaseHeight t g (k' + 1) c).1 =
          leftDescend j (increaseHeight t g k' (c + 1)).1 := by
        by_cases hz : leftBranchHeight t (k' + 1) = 0
        · rw [increaseHeight_succ_zero t g k' c hz]
          simp [leftDescend]
        · rw [increaseHeight_succ_pos t g k' c (by omega)]
          simp [leftDescend]
      rw [hstep, ih k' (c + 1) (by omega)]
      have h1 : k' + 1 - (j + 1) = k' - j := by omega
      have h2 : c + 1 + j = c + (j + 1) := by omega
      rw [h1, h2]

/-- Under the `u64` bounds on the height and the step count, the wrapped
left branch height at level `i ≥ 1` is `(H0 + i - 1) mod 2^64`. -/
theorem leftBranchHeight_eq {T : Type} (t : Option (GTree T)) (i : Nat)
    (hH : heightO t < 2 ^ 64) (h1 : 1 ≤ i) (hi : i < 2 ^ 64) :
    leftBranchHeight t i = (heightO t + i - 1) % 2 ^ 64 := by
  unfold leftBranchHeight u64sub u64add
  have h64 : (2 : Nat) ^ 64 = 18446744073709551616 := by norm_num
  rw [h64] at hH hi ⊢
  omega

/-- C2 counterexample: with `generations_per_height = 2^63` and `steps = 3`
from the empty tree, the source's `u64` product
`left_branch_height * generations_per_height = 2 * 2^63` wraps to 0, so the
new root's right leaf carries `max_generations = 0` while the claim asserts
the unbounded value `(0 + 3 - 1) * 2^63 = 2^64` — which no `u64` field can
hold. -/
theorem increaseHeight_overflow_counterexample :
    (increaseHeight (T := Nat) none (2 ^ 63) 3 0).1 =
      some (.mk (GeneticNodeWrapper.new Nat (2 ^ 63) 0)
        (some (.mk (GeneticNodeWrapper.new Nat (2 ^ 63) 1)
          (some (.mk (GeneticNodeWrapper.new Nat (2 ^ 63) 2) none none))
          (some (.mk (GeneticNodeWrapper.new Nat (2 ^ 63) 3) none none))))
        (some (.mk (GeneticNodeWrapper.new Nat 0 4) none none))) ∧
    (heightO (T := GeneticNodeWrapper Nat) none + 3 - 1) * 2 ^ 63 = 2 ^ 64 ∧
    (0 : Nat) ≠ 2 ^ 64 := by
  refine ⟨rfl, by norm_num [heightO], by norm_num⟩

/-- C2 (amended for the `u64` wrap): after growing a tree of height
`H0 < 2^64` (`H0 = 0` when absent) by `1 ≤ steps < 2^64` levels, the node
`i` levels above the old root (for `1 ≤ i ≤ steps`) is a fresh `Initialize`
wrapper with `max_generations = g`, its left child is the `(i-1)`-level
growth of the old tree, and its right child is a fresh `Initialize` leaf
with `max_generations = ((H0 + i - 1) mod 2^64) * g mod 2^64` (the source's
wrapping `u64` product), omitted exactly when `(H0 + i - 1) mod 2^64 = 0` —
equivalently `i = 1 ∧ H0 = 0`, or `H0 + i = 2^64 + 1`; the old tree sits
`steps` left-edges below the new root. The leaf's id is allocated after the
root's (`c' < c''`, freshness of the counter model). -/
theorem increaseHeight_level_structure {T : Type} (t : Option (GTree T))
    (g steps ctr i : Nat) (h1 : 1 ≤ i) (h2 : i ≤ steps)
    (hH : heightO t < 2 ^ 64) (hs : steps < 2 ^ 64) :
    (∃ c' c'', ctr ≤ c' ∧ c' < c'' ∧
      leftDescend (steps - i) (increaseHeight t g steps ctr).1 =
        some (.mk (GeneticNodeWrapper.new T g c')
          (increaseHeight t g (i - 1) (c' + 1)).1
          (if (heightO t + i - 1) % 2 ^ 64 = 0 then none
           else some (.mk (GeneticNodeWrapper.new T
             (((heightO t + i - 1) % 2 ^ 64) * g % 2 ^ 64) c'')
             none none)))) ∧
    leftDescend steps (increaseHeight t g steps ctr).1 = t ∧
    ((heightO t + i - 1) % 2 ^ 64 = 0 ↔
      (i = 1 ∧ heightO t = 0) ∨ heightO t + i = 2 ^ 64 + 1) := by
  have h64 : (2 : Nat) ^ 64 = 18446744073709551616 := by norm_num
  have hlbh : leftBranchHeight t i = (heightO t + i - 1) % 2 ^ 64 :=
    leftBranchHeight_eq t i hH h1 (by omega)
  refine ⟨?_, ?_, ?_⟩
  · have hld := leftDescend_increase t g (steps - i) steps ctr (by omega)
    have hii : steps - (steps - i) = i := by omega
    rw [hii] at hld
    obtain ⟨i0, rfl⟩ : ∃ i0, i = i0 + 1 := ⟨i - 1, by omega⟩
    have hsub : i0 + 1 - 1 = i0 := by omega
    by_cases hz : leftBranchHeight t (i0 + 1) = 0
    · refine ⟨ctr + (steps - (i0 + 1)), ctr + (steps - (i0 + 1)) + 1,
        by omega, by omega, ?_⟩
      rw [hld, increaseHeight_succ_zero t g i0 _ hz, hsub]
      rw [if_pos (by rw [← hlbh]; exact hz)]
    · refine ⟨ctr + (steps - (i0 + 1)),
        (increaseHeight t g i0 (ctr + (steps - (i0 + 1)) + 1)).2,
        by omega, ?_, ?_⟩
      · have := increaseHeight_ctr_le t g i0 (ctr + (steps - (i0 + 1)) + 1)
        omega
      · rw [hld, increaseHeight_succ_pos t g i0 _ (by omega), hsub]
        rw [if_neg (by rw [← hlbh]; exact hz)]
        rw [u64mul, hlbh]
  · have hld := leftDescend_increase t g steps steps ctr (le_refl _)
    simpa [increaseHeight_zero] using hld
  · rw [h64] at hH hs ⊢
    omega

/-- Witness for the amended C2: growing the empty tree by 3 levels with
`g = 3` and looking 2 levels above the (absent) old root: a fresh
`Initialize` wrapper with `max_generations = 3` whose right leaf has
`max_generations = ((0 + 2 - 1) mod 2^64) * 3 mod 2^64 = 3`; the old
(empty) tree sits 3 left edges below the new root. -/
theorem increaseHeight_level_structure_witness :
    (∃ c' c'', 0 ≤ c' ∧ c' < c'' ∧
      leftDescend (3 - 2) (increaseHeight (T := Nat) none 3 3 0).1 =
        some (.mk (GeneticNodeWrapper.new Nat 3 c')
          (increaseHeight (T := Nat) none 3 (2 - 1) (c' + 1)).1
          (if (heightO (T := GeneticNodeWrapper Nat) none + 2 - 1) % 2 ^ 64 = 0
           then none
           else some (.mk (GeneticNodeWrapper.new Nat
             (((heightO (T := GeneticNodeWrapper Nat) none + 2 - 1) % 2 ^ 64)
               * 3 % 2 ^ 64) c'')
             none none)))) ∧
    leftDescend 3 (increaseHeight (T := Nat) none 3 3 0).1 = none ∧
    ((heightO (T := GeneticNodeWrapper Nat) none + 2 - 1) % 2 ^ 64 = 0 ↔
      (2 = 1 ∧ heightO (T := GeneticNodeWrapper Nat) none = 0) ∨
        heightO (T := GeneticNodeWrapper Nat) none + 2 = 2 ^ 64 + 1) :=
  increaseHeight_level_structure none 3 3 0 2 (by decide) (by decide)
    (by norm_num [heightO]) (by norm_num)

/-! ### The wrapper generation invariant -/

/-- The inductive wrapper invariant: generation stays within
`[1, max_generations]`, `max_generations` fits in a `u64`, and a `Mutate`
state still has room for its unconditional generation increment. -/
def WrapperInv {T : Type} (w : GeneticNodeWrapper T) : Prop :=
  1 ≤ w.generation ∧ w.generation ≤ w.max_generations ∧
  w.max_generations < 2 ^ 64 ∧
  (w.state = GeneticState.Mutate → w.generation < w.max_generations)

/-- One successful `process_node` step preserves the wrapper invariant. -/
theorem processNode_preserves_inv {T E : Type} (impl : GeneticNodeImpl T E)
    (w w' : GeneticNodeWrapper T) (h : WrapperInv w)
    (hp : processNode impl w = .ok w') : WrapperInv w' := by
  obtain ⟨nd, st, gen, mx, i⟩ := w
  obtain ⟨h1, h2, h3, h4⟩ := h
  simp only at h1 h2 h3 h4
  cases st with
  | Initialize =>
      cases hcall : impl.initFn ⟨gen, mx, i⟩ with
      | error e => simp [processNode, mkContext, hcall] at hp
      | ok n =>
          simp [processNode, mkContext, hcall] at hp
          subst hp
          exact ⟨h1, h2, h3, by simp⟩
  | Simulate =>
      cases nd with
      | none => simp [processNode] at hp
      | some n =>
          cases hcall : impl.simulate n ⟨gen, mx, i⟩ with
          | error e => simp [processNode, mkContext, hcall] at hp
          | ok n' =>
              simp [processNode, mkContext, hcall] at hp
              subst hp
              by_cases hge : gen ≥ mx
              · refine ⟨h1, h2, h3, ?_⟩
                simp [hge]
              · refine ⟨h1, h2, h3, ?_⟩
                simp [hge]
                omega
  | Mutate =>
      cases nd with
      | none => simp [processNode] at hp
      | some n =>
          cases hcall : impl.mutate n ⟨gen, mx, i⟩ with
          | error e => simp [processNode, mkContext, hcall] at hp
          | ok n' =>
              simp [processNode, mkContext, hcall] at hp
              subst hp
              have hlt : gen < mx := h4 rfl
              have hmod : (gen + 1) % 2 ^ 64 = gen + 1 :=
                Nat.mod_eq_of_lt (by omega)
              refine ⟨?_, ?_, h3, by simp⟩ <;> simp [hmod] <;> omega
  | Finish =>
      cases nd with
      | none => simp [processNode] at hp
      | some n =>
          simp [processNode] at hp
          subst hp
          exact ⟨h1, h2, h3, h4⟩

/-- A successful step reaches `Finish` only from `Finish` itself or from a
`Simulate` step with `generation ≥ max_generations`. -/
theorem processNode_finish_entry {T E : Type} (impl : GeneticNodeImpl T E)
    (w w' : GeneticNodeWrapper T) (hp : processNode impl w = .ok w')
    (hf : w'.state = GeneticState.Finish) :
    w.state = GeneticState.Finish ∨
      (w.state = GeneticState.Simulate ∧ w.max_generations ≤ w.generation) := by
  obtain ⟨nd, st, gen, mx, i⟩ := w
  cases st with
  | Initialize =>
      cases hcall : impl.initFn ⟨gen, mx, i⟩ with
      | error e => simp [processNode, mkContext, hcall] at hp
      | ok n =>
          simp [processNode, mkContext, hcall] at hp
          subst hp
          simp at hf
  | Simulate =>
      cases nd with
      | none => simp [processNode] at hp
      | some n =>
          cases hcall : impl.simulate n ⟨gen, mx, i⟩ with
          | error e => simp [processNode, mkContext, hcall] at hp
          | ok n' =>
              simp [processNode, mkContext, hcall] at hp
              subst hp
              by_cases hge : gen ≥ mx
              · exact Or.inr ⟨rfl, hge⟩
              · simp [hge] at hf
  | Mutate =>
      cases nd with
      | none => simp [processNode] at hp
      | some n =>
          cases hcall : impl.mutate n ⟨gen, mx, i⟩ with
          | error e => simp [processNode, mkContext, hcall] at hp
          | ok n' =>
              simp [processNode, mkContext, hcall] at hp
              subst hp
              simp at hf
  | Finish => exact Or.inl rfl

/-- C8: for a wrapper built by `new(m)` or `from(payload, m, id)` with
`m ≥ 1` (and `m` a `u64`), every wrapper reachable by successful
`process_node` steps satisfies `1 ≤ generation ≤ max_generations`, and any
step out of a non-`Finish` state into `Finish` happens from `Simulate` with
`generation ≥ max_generations`. -/
theorem wrapper_invariant_reachable {T E : Type} (impl : GeneticNodeImpl T E)
    (m i : Nat) (hm : 1 ≤ m) (hm64 : m < 2 ^ 64)
    (w0 : GeneticNodeWrapper T)
    (h0 : w0 = GeneticNodeWrapper.new T m i ∨
          ∃ p, w0 = GeneticNodeWrapper.fromData p m i)
    (w : GeneticNodeWrapper T)
    (hr : Relation.ReflTransGen
      (fun a b => processNode impl a = Except.ok b) w0 w) :
    (1 ≤ w.generation ∧ w.generation ≤ w.max_generations) ∧
    (∀ w', processNode impl w = .ok w' → w'.state = GeneticState.Finish →
      w.state ≠ GeneticState.Finish →
      w.state = GeneticState.Simulate ∧ w.max_generations ≤ w.generation) := by
  have hinv0 : WrapperInv w0 := by
    rcases h0 with h | ⟨p, h⟩ <;> subst h <;>
      exact ⟨le_refl 1, hm, hm64, by simp [GeneticNodeWrapper.new,
        GeneticNodeWrapper.fromData]⟩
  have hinv : WrapperInv w := by
    induction hr with
    | refl => exact hinv0
    | tail hab hbc ih => exact processNode_preserves_inv impl _ _ ih hbc
  refine ⟨⟨hinv.1, hinv.2.1⟩, ?_⟩
  intro w' hp hf hnf
  rcases processNode_finish_entry impl w w' hp hf with h | h
  · exact absurd h hnf
  · exact h

/-- Witness for C8: from `new(2)` three successful steps reach the wrapper
`{payload 1, Simulate, generation 2, max 2}`, which satisfies
`1 ≤ generation ≤ max_generations`. -/
theorem wrapper_invariant_reachable_witness :
    1 ≤ (⟨some 1, .Simulate, 2, 2, 0⟩ : GeneticNodeWrapper Nat).generation ∧
    (⟨some 1, .Simulate, 2, 2, 0⟩ : GeneticNodeWrapper Nat).generation ≤
      (⟨some 1, .Simulate, 2, 2, 0⟩ : GeneticNodeWrapper Nat).max_generations := by
  have s1 : processNode natImpl (GeneticNodeWrapper.new Nat 2 0) =
      .ok ⟨some 0, .Simulate, 1, 2, 0⟩ := rfl
  have s2 : processNode natImpl (⟨some 0, .Simulate, 1, 2, 0⟩ : GeneticNodeWrapper Nat) =
      .ok ⟨some 1, .Mutate, 1, 2, 0⟩ := rfl
  have s3 : processNode natImpl (⟨some 1, .Mutate, 1, 2, 0⟩ : GeneticNodeWrapper Nat) =
      .ok ⟨some 1, .Simulate, 2, 2, 0⟩ := rfl
  exact (wrapper_invariant_reachable natImpl 2 0 (by decide) (by decide)
    (GeneticNodeWrapper.new Nat 2 0) (Or.inl rfl) _
    (Relation.ReflTransGen.tail
      (Relation.ReflTransGen.tail
        (Relation.ReflTransGen.tail Relation.ReflTransGen.refl s1) s2) s3)).1

/-! ### The engine step relation and permanence of `Finish` (C9) -/

/-- The ids of a tree's nodes. -/
def idsO {T : Type} (x : Option (GTree T)) : List Nat :=
  (nodesOfO x).map (fun n => n.id)

/-- Every node carrying id `x` is in `Finish` state. -/
def FinishedAt {T : Type} (x : Nat) (t : Option (GTree T)) : Prop :=
  ∀ n ∈ nodesOfO t, n.id = x → n.state = GeneticState.Finish

/-- `nodesOf` of a node is the value followed by both children's nodes. -/
theorem nodesOf_mk {T : Type} (v : T) (l r : Option (Tree T)) :
    nodesOf (.mk v l r) = v :: (nodesOfO l ++ nodesOfO r) := by
  cases l <;> cases r <;> simp [nodesOf, nodesOfO]

/-- If the mapped list is duplicate-free, `f` is injective on members. -/
theorem nodup_map_inj_on {α β : Type} (f : α → β) :
    ∀ (l : List α), (l.map f).Nodup →
      ∀ a ∈ l, ∀ b ∈ l, f a = f b → a = b := by
  intro l
  induction l with
  | nil => intro _ a ha; simp at ha
  | cons c rest ih =>
      intro hnd a ha b hb hf
      simp only [List.map_cons, List.nodup_cons] at hnd
      rcases List.mem_cons.mp ha with rfl | ha' <;>
        rcases List.mem_cons.mp hb with rfl | hb'
      · rfl
      · exact absurd (hf ▸ List.mem_map_of_mem f hb') hnd.1
      · exact absurd (hf ▸ List.mem_map_of_mem f ha') hnd.1
      · exact ih hnd.2 a ha' b hb' hf

/-- A member of the right list of a `Forall₂` has a related partner on the
left. -/
theorem forall₂_partner {α β : Type} {R : α → β → Prop} :
    ∀ {l₁ : List α} {l₂ : List β}, List.Forall₂ R l₁ l₂ →
      ∀ b ∈ l₂, ∃ a ∈ l₁, R a b := by
  intro l₁ l₂ h
  induction h with
  | nil => intro b hb; simp at hb
  | cons hab htail ih =>
      intro b hb
      rcases List.mem_cons.mp hb with rfl | hb'
      · exact ⟨_, List.mem_cons_self _ _, hab⟩
      · obtain ⟨a, ha, hr⟩ := ih b hb'
        exact ⟨a, List.mem_cons_of_mem _ ha, hr⟩

/-- A `Forall₂` whose relation forces equal ids preserves the mapped id
list. -/
theorem forall₂_map_id_eq {T : Type} {P : GeneticNodeWrapper T →
      GeneticNodeWrapper T → Prop} :
    ∀ {l₁ l₂ : List (GeneticNodeWrapper T)},
      List.Forall₂ (fun n n' => n'.id = n.id ∧ P n n') l₁ l₂ →
      l₂.map (fun n => n.id) = l₁.map (fun n => n.id) := by
  intro l₁ l₂ h
  induction h with
  | nil => rfl
  | cons hab htail ih => simp [ih, hab.1]

/-- `removeFirst` returns a member and a remainder drawn from the list. -/
theorem removeFirst_mem {α : Type} (p : α → Bool) :
    ∀ (l : List α) (a : α) (rest : List α),
      removeFirst p l = some (a, rest) →
      a ∈ l ∧ p a = true ∧ ∀ x ∈ rest, x ∈ l := by
  intro l
  induction l with
  | nil => intro a rest h; simp [removeFirst] at h
  | cons c cs ih =>
      intro a rest h
      by_cases hp : p c
      · simp [removeFirst, hp] at h
        obtain ⟨rfl, rfl⟩ := h
        exact ⟨List.mem_cons_self _ _, hp, fun x hx => List.mem_cons_of_mem _ hx⟩
      · simp only [removeFirst, hp, Bool.false_eq_true, if_false] at h
        cases hrec : removeFirst p cs with
        | none => rw [hrec] at h; simp at h
        | some pr =>
            rw [hrec] at h
            obtain ⟨a', rest'⟩ := pr
            simp at h
            obtain ⟨rfl, rfl⟩ := h
            obtain ⟨hmem, hpa, hsub⟩ := ih a' rest' hrec
            refine ⟨List.mem_cons_of_mem _ hmem, hpa, fun x hx => ?_⟩
            rcases List.mem_cons.mp hx with rfl | hx'
            · exact List.mem_cons_self _ _
            · exact List.mem_cons_of_mem _ (hsub x hx')

/-- The value `replace_nodes` installs at a node: either the old value, or a
list member with the same id; the remainder is drawn from the list. -/
theorem replaceVal_spec {T : Type} (v : GeneticNodeWrapper T)
    (ns : List (GeneticNodeWrapper T)) :
    ((replaceVal v ns).1 = v ∨ (replaceVal v ns).1 ∈ ns) ∧
    (replaceVal v ns).1.id = v.id ∧
    (∀ x ∈ (replaceVal v ns).2, x ∈ ns) := by
  unfold replaceVal
  cases hrf : removeFirst (fun n => n.id == v.id) ns with
  | none => exact ⟨Or.inl rfl, rfl, fun x hx => hx⟩
  | some pr =>
      obtain ⟨a, rest⟩ := pr
      dsimp only
      obtain ⟨hmem, hpa, hsub⟩ := removeFirst_mem _ ns a rest hrf
      refine ⟨Or.inr hmem, ?_, hsub⟩
      simpa using hpa

/-- Write-back correspondence: each node of the updated tree keeps its
position's id and is either the old value or drawn from the result list;
the returned leftover list is drawn from the input list. -/
theorem replaceNodes_spec {T : Type} :
    ∀ (t : GTree T) (ns : List (GeneticNodeWrapper T)),
      List.Forall₂ (fun n n' => n'.id = n.id ∧ (n' = n ∨ n' ∈ ns))
        (nodesOf t) (nodesOf (replaceNodes t ns).1) ∧
      (∀ x ∈ (replaceNodes t ns).2, x ∈ ns) := by
  intro t
  induction t using Tree.indP with
  | h v l r ihl ihr =>
    intro ns
    obtain ⟨hv1, hv2, hv3⟩ := replaceVal_spec v ns
    cases l with
    | none =>
        cases r with
        | none =>
            constructor
            · simp only [replaceNodes, nodesOf_mk, nodesOfO, List.nil_append]
              exact List.Forall₂.cons ⟨hv2, hv1⟩ List.Forall₂.nil
            · exact hv3
        | some rt =>
            obtain ⟨hfa, hsub⟩ := ihr rt rfl (replaceVal v ns).2
            constructor
            · simp only [replaceNodes, nodesOf_mk, nodesOfO, List.nil_append]
              exact List.Forall₂.cons ⟨hv2, hv1⟩
                (hfa.imp (fun a b hab => ⟨hab.1, hab.2.imp_right (fun hb => hv3 _ hb)⟩))
            · exact fun x hx => hv3 _ (hsub x hx)
    | some lt =>
        cases r with
        | none =>
            obtain ⟨hfa, hsub⟩ := ihl lt rfl (replaceVal v ns).2
            constructor
            · simp only [replaceNodes, nodesOf_mk, nodesOfO, List.append_nil]
              exact List.Forall₂.cons ⟨hv2, hv1⟩
                (hfa.imp (fun a b hab => ⟨hab.1, hab.2.imp_right (fun hb => hv3 _ hb)⟩))
            · exact fun x hx => hv3 _ (hsub x hx)
        | some rt =>
            obtain ⟨hfal, hsubl⟩ := ihl lt rfl (replaceVal v ns).2
            obtain ⟨hfar, hsubr⟩ :=
              ihr rt rfl (replaceNodes lt (replaceVal v ns).2).2
            have hsubl' : ∀ x ∈ (replaceNodes lt (replaceVal v ns).2).2, x ∈ ns :=
              fun x hx => hv3 _ (hsubl x hx)
            constructor
            · simp only [replaceNodes, nodesOf_mk, nodesOfO]
              exact List.Forall₂.cons ⟨hv2, hv1⟩
                (List.rel_append
                  (hfal.imp (fun a b hab => ⟨hab.1, hab.2.imp_right (fun hb => hv3 _ hb)⟩))
                  (hfar.imp (fun a b hab => ⟨hab.1, hab.2.imp_right (fun hb => hsubl' _ hb)⟩)))
            · exact fun x hx => hsubl' _ (hsubr x hx)

/-- Merge-sweep correspondence: each node of the swept tree keeps its id and
is either unchanged or an `Initialize` node promoted to a `Simulate` node
built by `from`. -/
theorem mergeCompleted_spec {T E : Type} (mrg : T → T → Nat → Except E T) :
    ∀ t : GTree T,
      List.Forall₂ (fun n n' => n'.id = n.id ∧
        (n' = n ∨ (n.state = GeneticState.Initialize ∧
                   n'.state = GeneticState.Simulate)))
        (nodesOf t) (nodesOf (mergeCompletedNodes mrg t).1) := by
  intro t
  induction t using Tree.indP with
  | h v l r ihl ihr =>
    have hrefl : ∀ (tt : GTree T),
        List.Forall₂ (fun n n' => n'.id = n.id ∧
          (n' = n ∨ (n.state = GeneticState.Initialize ∧
                     n'.state = GeneticState.Simulate)))
          (nodesOf tt) (nodesOf tt) :=
      fun tt => List.forall₂_same.mpr (fun y _ => ⟨rfl, Or.inl rfl⟩)
    unfold mergeCompletedNodes
    by_cases hv : v.state = GeneticState.Initialize
    · rw [if_pos hv]
      cases l with
      | none =>
          cases r with
          | none => exact hrefl (.mk v none none)
          | some rt =>
              dsimp only
              by_cases hf : rt.val.state = GeneticState.Finish
              · rw [if_pos hf]
                cases hn : rt.val.node with
                | none => exact hrefl (.mk v none (some rt))
                | some rn =>
                    dsimp only
                    rw [nodesOf_mk, nodesOf_mk]
                    exact List.Forall₂.cons ⟨rfl, Or.inr ⟨hv, rfl⟩⟩
                      (List.forall₂_same.mpr (fun y _ => ⟨rfl, Or.inl rfl⟩))
              · rw [if_neg hf]
                dsimp only
                rw [nodesOf_mk, nodesOf_mk]
                exact List.Forall₂.cons ⟨rfl, Or.inl rfl⟩
                  (List.rel_append (List.Forall₂.nil) (ihr rt rfl))
      | some lt =>
          cases r with
          | none =>
              dsimp only
              by_cases hf : lt.val.state = GeneticState.Finish
              · rw [if_pos hf]
                exact hrefl (.mk v (some lt) none)
              · rw [if_neg hf]
                dsimp only
                rw [nodesOf_mk, nodesOf_mk]
                exact List.Forall₂.cons ⟨rfl, Or.inl rfl⟩
                  (List.rel_append (ihl lt rfl) (List.Forall₂.nil))
          | some rt =>
              dsimp only
              by_cases hf : lt.val.state = GeneticState.Finish ∧
                  rt.val.state = GeneticState.Finish
              · rw [if_pos hf]
                cases hnl : lt.val.node with
                | none =>
                    dsimp only
                    exact hrefl (.mk v (some lt) (some rt))
                | some ln =>
                    cases hnr : rt.val.node with
                    | none =>
                        dsimp only
                        exact hrefl (.mk v (some lt) (some rt))
                    | some rn =>
                        dsimp only
                        cases hm : mrg ln rn v.id with
                        | error e =>
                            dsimp only
                            exact hrefl (.mk v (some lt) (some rt))
                        | ok m =>
                            dsimp only
                            rw [nodesOf_mk, nodesOf_mk]
                            exact List.Forall₂.cons ⟨rfl, Or.inr ⟨hv, rfl⟩⟩
                              (List.rel_append (hrefl lt) (hrefl rt))
              · rw [if_neg hf]
                cases he : (mergeCompletedNodes mrg lt).2 with
                | some e =>
                    dsimp only
                    rw [nodesOf_mk, nodesOf_mk]
                    exact List.Forall₂.cons ⟨rfl, Or.inl rfl⟩
                      (List.rel_append (ihl lt rfl) (hrefl rt))
                | none =>
                    dsimp only
                    rw [nodesOf_mk, nodesOf_mk]
                    exact List.Forall₂.cons ⟨rfl, Or.inl rfl⟩
                      (List.rel_append (ihl lt rfl) (ihr rt rfl))
    · rw [if_neg hv]
      exact hrefl (.mk v l r)

/-- A node returned by the unprocessed-node search is a node of the tree
whose state is not `Finish`. -/
theorem getUnprocessedNode_spec {T : Type} (pids : List Nat) :
    ∀ (t : GTree T) (w : GeneticNodeWrapper T),
      getUnprocessedNode pids t = some w →
      w ∈ nodesOf t ∧ w.state ≠ GeneticState.Finish := by
  intro t
  induction t using Tree.indP with
  | h v l r ihl ihr =>
    intro w hw
    unfold getUnprocessedNode at hw
    by_cases hc : v.state ≠ GeneticState.Finish ∧ v.id ∉ pids
    · rw [if_pos hc] at hw
      cases l with
      | none =>
          cases r with
          | none =>
              dsimp only at hw
              cases hw
              exact ⟨by rw [nodesOf_mk]; exact List.mem_cons_self _ _, hc.1⟩
          | some rt =>
              dsimp only at hw
              obtain ⟨hmem, hst⟩ := ihr rt rfl w hw
              refine ⟨?_, hst⟩
              rw [nodesOf_mk]
              exact List.mem_cons_of_mem _ (List.mem_append_right _ hmem)
      | some lt =>
          cases r with
          | none =>
              dsimp only at hw
              obtain ⟨hmem, hst⟩ := ihl lt rfl w hw
              refine ⟨?_, hst⟩
              rw [nodesOf_mk]
              exact List.mem_cons_of_mem _ (List.mem_append_left _ hmem)
          | some rt =>
              dsimp only at hw
              by_cases hf : lt.val.state = GeneticState.Finish ∧
                  rt.val.state = GeneticState.Finish
              · rw [if_pos hf] at hw
                cases hw
                exact ⟨by rw [nodesOf_mk]; exact List.mem_cons_self _ _, hc.1⟩
              · rw [if_neg hf] at hw
                cases hl : getUnprocessedNode pids lt with
                | some w1 =>
                    rw [hl] at hw
                    dsimp only at hw
                    cases hw
                    obtain ⟨hmem, hst⟩ := ihl lt rfl w hl
                    refine ⟨?_, hst⟩
                    rw [nodesOf_mk]
                    exact List.mem_cons_of_mem _ (List.mem_append_left _ hmem)
                | none =>
                    rw [hl] at hw
                    dsimp only at hw
                    obtain ⟨hmem, hst⟩ := ihr rt rfl w hw
                    refine ⟨?_, hst⟩
                    rw [nodesOf_mk]
                    exact List.mem_cons_of_mem _ (List.mem_append_right _ hmem)
    · rw [if_neg hc] at hw
      exact absurd hw (by simp)

/-- A successful `process_node` keeps the wrapper's id and
`max_generations`. -/
theorem processNode_ok_id {T E : Type} (impl : GeneticNodeImpl T E)
    (w w' : GeneticNodeWrapper T) (hp : processNode impl w = .ok w') :
    w'.id = w.id ∧ w'.max_generations = w.max_generations := by
  obtain ⟨nd, st, gen, mx, i⟩ := w
  cases st with
  | Initialize =>
      cases hcall : impl.initFn ⟨gen, mx, i⟩ with
      | error e => simp [processNode, mkContext, hcall] at hp
      | ok n =>
          simp [processNode, mkContext, hcall] at hp
          subst hp; exact ⟨rfl, rfl⟩
  | Simulate =>
      cases nd with
      | none => simp [processNode] at hp
      | some n =>
          cases hcall : impl.simulate n ⟨gen, mx, i⟩ with
          | error e => simp [processNode, mkContext, hcall] at hp
          | ok n' =>
              simp [processNode, mkContext, hcall] at hp
              subst hp; exact ⟨rfl, rfl⟩
  | Mutate =>
      cases nd with
      | none => simp [processNode] at hp
      | some n =>
          cases hcall : impl.mutate n ⟨gen, mx, i⟩ with
          | error e => simp [processNode, mkContext, hcall] at hp
          | ok n' =>
              simp [processNode, mkContext, hcall] at hp
              subst hp; exact ⟨rfl, rfl⟩
  | Finish =>
      cases nd with
      | none => simp [processNode] at hp
      | some n =>
          simp [processNode] at hp
          subst hp; exact ⟨rfl, rfl⟩

/-- `idsO` at an explicit node. -/
theorem idsO_mk {T : Type} (v : GeneticNodeWrapper T) (l r : Option (GTree T)) :
    idsO (some (.mk v l r)) = v.id :: (idsO l ++ idsO r) := by
  simp [idsO, nodesOfO, nodesOf_mk]

/-- `idsO` of the absent tree. -/
theorem idsO_none {T : Type} : idsO (T := T) none = [] := rfl

/-- Growth keeps every old node in the tree. -/
theorem increaseHeight_keeps_nodes {T : Type} (t : Option (GTree T)) (g : Nat) :
    ∀ (s c : Nat), ∀ n ∈ nodesOfO t, n ∈ nodesOfO (increaseHeight t g s c).1 := by
  intro s
  induction s with
  | zero => intro c n hn; exact hn
  | succ k ih =>
      intro c n hn
      by_cases hz : leftBranchHeight t (k + 1) = 0
      · rw [increaseHeight_succ_zero t g k c hz]
        simp only [nodesOfO, nodesOf_mk]
        exact List.mem_cons_of_mem _ (List.mem_append_left _ (ih (c + 1) n hn))
      · rw [increaseHeight_succ_pos t g k c (by omega)]
        simp only [nodesOfO, nodesOf_mk]
        exact List.mem_cons_of_mem _ (List.mem_append_left _ (ih (c + 1) n hn))

/-- Every node of a grown tree is an old node or a freshly allocated
`Initialize` wrapper whose id lies in the counter interval consumed. -/
theorem increaseHeight_nodes {T : Type} (t : Option (GTree T)) (g : Nat) :
    ∀ (s c : Nat), ∀ n ∈ nodesOfO (increaseHeight t g s c).1,
      n ∈ nodesOfO t ∨
        (c ≤ n.id ∧ n.id < (increaseHeight t g s c).2 ∧
         n.state = GeneticState.Initialize) := by
  intro s
  induction s with
  | zero => intro c n hn; exact Or.inl hn
  | succ k ih =>
      intro c n hn
      have hctr := increaseHeight_ctr_le t g k (c + 1)
      by_cases hz : leftBranchHeight t (k + 1) = 0
      · rw [increaseHeight_succ_zero t g k c hz] at hn ⊢
        simp only [nodesOfO, nodesOf_mk, List.mem_cons, List.mem_append,
          List.not_mem_nil, or_false] at hn
        rcases hn with rfl | hn
        · exact Or.inr ⟨by simp [GeneticNodeWrapper.new],
            by simp only [GeneticNodeWrapper.new]; omega,
            by simp [GeneticNodeWrapper.new]⟩
        · rcases ih (c + 1) n hn with hold | ⟨hge, hlt, hst⟩
          · exact Or.inl hold
          · exact Or.inr ⟨by omega, hlt, hst⟩
      · rw [increaseHeight_succ_pos t g k c (by omega)] at hn ⊢
        simp only [nodesOfO, nodesOf_mk, List.mem_cons, List.mem_append,
          List.not_mem_nil, or_false] at hn
        rcases hn with rfl | hn | rfl
        · exact Or.inr ⟨by simp [GeneticNodeWrapper.new],
            by simp only [GeneticNodeWrapper.new]; omega,
            by simp [GeneticNodeWrapper.new]⟩
        · rcases ih (c + 1) n hn with hold | ⟨hge, hlt, hst⟩
          · exact Or.inl hold
          · exact Or.inr ⟨by omega, by simp only; omega, hst⟩
        · exact Or.inr ⟨by simp only [GeneticNodeWrapper.new]; omega,
            by simp only [GeneticNodeWrapper.new]; omega,
            by simp [GeneticNodeWrapper.new]⟩

/-- Growth with a counter dominating all existing ids keeps the id list
duplicate-free, and the new counter dominates the grown tree's ids. -/
theorem increaseHeight_ids_nodup {T : Type} (t : Option (GTree T)) (g : Nat) :
    ∀ (s c : Nat), (idsO t).Nodup → (∀ i ∈ idsO t, i < c) →
      (idsO (increaseHeight t g s c).1).Nodup ∧
      (∀ i ∈ idsO (increaseHeight t g s c).1, i < (increaseHeight t g s c).2) := by
  intro s
  induction s with
  | zero => intro c h1 h2; exact ⟨h1, h2⟩
  | succ k ih =>
      intro c h1 h2
      have hctr := increaseHeight_ctr_le t g k (c + 1)
      obtain ⟨ihn, ihb⟩ := ih (c + 1) h1 (fun i hi => by have := h2 i hi; omega)
      have hne_c : ∀ i ∈ idsO (increaseHeight t g k (c + 1)).1, i ≠ c := by
        intro i hi
        obtain ⟨n, hn, rfl⟩ := List.mem_map.mp hi
        rcases increaseHeight_nodes t g k (c + 1) n hn with hold | ⟨hge, _, _⟩
        · have hmem : n.id ∈ idsO t := List.mem_map_of_mem _ hold
          have := h2 _ hmem; omega
        · omega
      by_cases hz : leftBranchHeight t (k + 1) = 0
      · rw [increaseHeight_succ_zero t g k c hz]
        constructor
        · rw [idsO_mk, idsO_none, List.append_nil]
          refine List.nodup_cons.mpr ⟨?_, ihn⟩
          intro hmem
          exact hne_c _ hmem (by simp [GeneticNodeWrapper.new])
        · intro i hi
          rw [idsO_mk, idsO_none, List.append_nil] at hi
          rcases List.mem_cons.mp hi with rfl | hi'
          · simp only [GeneticNodeWrapper.new]; omega
          · exact ihb i hi'
      · rw [increaseHeight_succ_pos t g k c (by omega)]
        constructor
        · rw [idsO_mk, idsO_mk, idsO_none, List.append_nil]
          refine List.nodup_cons.mpr ⟨?_, ?_⟩
          · intro hmem
            rcases List.mem_append.mp hmem with hmem' | hmem'
            · exact hne_c _ hmem' (by simp [GeneticNodeWrapper.new])
            · rcases List.mem_singleton.mp hmem' with h
              simp only [GeneticNodeWrapper.new] at h
              omega
          · refine List.Nodup.append ihn (List.nodup_singleton _) ?_
            intro a ha hb
            rcases List.mem_singleton.mp hb with rfl
            have := ihb _ ha
            simp only [GeneticNodeWrapper.new] at this ⊢
            omega
        · intro i hi
          rw [idsO_mk, idsO_mk, idsO_none, List.append_nil] at hi
          rcases List.mem_cons.mp hi with rfl | hi'
          · simp only [GeneticNodeWrapper.new]; omega
          · rcases List.mem_append.mp hi' with hm | hm
            · have := ihb i hm; simp only; omega
            · rcases List.mem_singleton.mp hm with rfl
              simp only [GeneticNodeWrapper.new]; omega

/-- `idsO` over a present tree. -/
theorem idsO_some {T : Type} (t0 : GTree T) :
    idsO (some t0) = (nodesOf t0).map (fun n => n.id) := rfl

/-- The engine's state as `Gemla::simulate` sees it: the stored tree, the
results of the in-flight `threads` futures (each one `process_node` applied
to a clone of a tree node, keyed by its id), and the id-allocation counter
standing in for `Uuid::new_v4`. -/
structure EngState (T : Type) where
  tree : Option (GTree T)
  pending : List (GeneticNodeWrapper T)
  ctr : Nat

/-- A fresh engine: no tree, no pending work. -/
def engInit (T : Type) : EngState T := ⟨none, [], 0⟩

/-- One step of the engine loop, mirroring `Gemla::simulate` and
`Gemla::join_threads`:
* `grow` — `increase_height`, guarded as in the source by the tree being
  absent or completed;
* `spawn` — pick the node found by `get_unprocessed_node` (not pending, not
  `Finish`), process it successfully, and add the result to the pending set
  (a failing task aborts `simulate` without touching the tree);
* `join` — drain all pending results: `replace_nodes` then
  `merge_completed_nodes` (whose tree mutations stand even when a merge
  errors). -/
inductive EngStep {T E : Type} (impl : GeneticNodeImpl T E) (g : Nat) :
    EngState T → EngState T → Prop where
  | grow (s : EngState T) (steps : Nat)
      (hdone : s.tree = none ∨ ∃ t0, s.tree = some t0 ∧ isCompleted t0) :
      EngStep impl g s
        ⟨(increaseHeight s.tree g steps s.ctr).1, s.pending,
         (increaseHeight s.tree g steps s.ctr).2⟩
  | spawn (s : EngState T) (t0 : GTree T) (w w' : GeneticNodeWrapper T)
      (ht : s.tree = some t0)
      (hw : getUnprocessedNode (s.pending.map (fun n => n.id)) t0 = some w)
      (hp : processNode impl w = .ok w') :
      EngStep impl g s ⟨s.tree, w' :: s.pending, s.ctr⟩
  | join (s : EngState T) (t0 : GTree T) (ht : s.tree = some t0)
      (hne : s.pending ≠ []) :
      EngStep impl g s
        ⟨some (mergeCompletedNodes impl.merge (replaceNodes t0 s.pending).1).1,
         [], s.ctr⟩

/-- The engine invariant: tree ids are duplicate-free and dominated by the
counter, and every pending result's id names a tree node that is not yet
`Finish`. -/
def EngInv {T : Type} (s : EngState T) : Prop :=
  (idsO s.tree).Nodup ∧
  (∀ i ∈ idsO s.tree, i < s.ctr) ∧
  (∀ w ∈ s.pending, ∀ n ∈ nodesOfO s.tree, n.id = w.id →
    n.state ≠ GeneticState.Finish)

/-- Every engine step preserves the invariant. -/
theorem engInv_step {T E : Type} {impl : GeneticNodeImpl T E} {g : Nat}
    {s s' : EngState T} (hinv : EngInv s) (hstep : EngStep impl g s s') :
    EngInv s' := by
  obtain ⟨hnd, hbound, hpend⟩ := hinv
  cases hstep with
  | grow steps hdone =>
      obtain ⟨hnd', hbound'⟩ :=
        increaseHeight_ids_nodup s.tree g steps s.ctr hnd hbound
      refine ⟨hnd', hbound', ?_⟩
      intro w hw n hn hid
      rcases increaseHeight_nodes s.tree g steps s.ctr n hn with hold | ⟨_, _, hst⟩
      · exact hpend w hw n hold hid
      · rw [hst]; simp
  | spawn t0 w w' ht hw hp =>
      refine ⟨hnd, hbound, ?_⟩
      intro w2 hw2 n hn hid
      rcases List.mem_cons.mp hw2 with rfl | hw2'
      · obtain ⟨hwid, _⟩ := processNode_ok_id impl w w2 hp
        obtain ⟨hwmem, hwst⟩ := getUnprocessedNode_spec _ t0 w hw
        rw [ht] at hn hnd
        have heq : n = w :=
          nodup_map_inj_on _ (nodesOf t0) hnd n hn w hwmem (by rw [hid, hwid])
        rw [heq]; exact hwst
      · exact hpend w2 hw2' n hn hid
  | join t0 ht hne =>
      obtain ⟨hfar, _⟩ := replaceNodes_spec t0 s.pending
      have hfam := mergeCompleted_spec impl.merge (replaceNodes t0 s.pending).1
      have hids1 := forall₂_map_id_eq hfar
      have hids2 := forall₂_map_id_eq hfam
      rw [ht] at hnd hbound
      refine ⟨?_, ?_, ?_⟩
      · rw [idsO_some, hids2, hids1]
        rw [idsO_some] at hnd
        exact hnd
      · intro i hi
        rw [idsO_some, hids2, hids1] at hi
        rw [idsO_some] at hbound
        exact hbound i hi
      · intro w hw
        simp at hw

/-- A reachable engine state satisfies the invariant. -/
theorem engInv_reach {T E : Type} (impl : GeneticNodeImpl T E) (g : Nat)
    (s : EngState T)
    (h : Relation.ReflTransGen (EngStep impl g) (engInit T) s) : EngInv s := by
  induction h with
  | refl =>
      refine ⟨by simp [engInit, idsO_none], ?_, ?_⟩
      · intro i hi; simp [engInit, idsO_none] at hi
      · intro w hw; simp [engInit] at hw
  | tail hab hbc ih => exact engInv_step ih hbc

/-- C9: in every state reachable by an engine run, once a present node id
`x` is everywhere `Finish`, any engine step — growth, spawning a processed
node, or the join (write-back by id followed by the merge sweep) — leaves
every node with id `x` in `Finish` state (and the id present). -/
theorem engine_finish_permanent {T E : Type} (impl : GeneticNodeImpl T E)
    (g : Nat) (s s' : EngState T) (x : Nat)
    (hreach : Relation.ReflTransGen (EngStep impl g) (engInit T) s)
    (hstep : EngStep impl g s s')
    (hx : x ∈ idsO s.tree) (hfin : FinishedAt x s.tree) :
    x ∈ idsO s'.tree ∧ FinishedAt x s'.tree := by
  obtain ⟨hnd, hbound, hpend⟩ := engInv_reach impl g s hreach
  cases hstep with
  | grow steps hdone =>
      constructor
      · obtain ⟨n, hn, hni⟩ := List.mem_map.mp hx
        rw [← hni]
        exact List.mem_map_of_mem _
          (increaseHeight_keeps_nodes s.tree g steps s.ctr n hn)
      · intro n hn hid
        rcases increaseHeight_nodes s.tree g steps s.ctr n hn with hold | ⟨hge, _, _⟩
        · exact hfin n hold hid
        · have hxlt : x < s.ctr := hbound x hx
          omega
  | spawn t0 w w' ht hw hp => exact ⟨hx, hfin⟩
  | join t0 ht hne =>
      have hnopend : ∀ w ∈ s.pending, w.id ≠ x := by
        intro w hw heq
        obtain ⟨m, hm, hmx⟩ := List.mem_map.mp hx
        have hfinm := hfin m hm hmx
        exact hpend w hw m hm (by rw [hmx, heq]) hfinm
      rw [ht] at hx hfin
      obtain ⟨hfar, _⟩ := replaceNodes_spec t0 s.pending
      have hfam := mergeCompleted_spec impl.merge (replaceNodes t0 s.pending).1
      have hfin1 : ∀ n' ∈ nodesOf (replaceNodes t0 s.pending).1,
          n'.id = x → n'.state = GeneticState.Finish := by
        intro n' hn' hid
        obtain ⟨n, hn, hideq, hcase⟩ := forall₂_partner hfar n' hn'
        have hnx : n.id = x := by rw [← hideq, hid]
        have hnfin : n.state = GeneticState.Finish := hfin n hn hnx
        rcases hcase with rfl | hmem
        · exact hnfin
        · exact absurd hid (hnopend n' hmem)
      have hfin2 : ∀ n' ∈ nodesOf
          (mergeCompletedNodes impl.merge (replaceNodes t0 s.pending).1).1,
          n'.id = x → n'.state = GeneticState.Finish := by
        intro n' hn' hid
        obtain ⟨n, hn, hideq, hcase⟩ := forall₂_partner hfam n' hn'
        rcases hcase with rfl | ⟨hinit, _⟩
        · exact hfin1 n' hn hid
        · have := hfin1 n hn (by rw [← hideq, hid])
          rw [hinit] at this
          exact absurd this (by simp)
      constructor
      · have hids1 := forall₂_map_id_eq hfar
        have hids2 := forall₂_map_id_eq hfam
        rw [idsO_some, hids2, hids1]
        rw [idsO_some] at hx
        exact hx
      · exact hfin2

/-- Concrete engine trace (witness data): after `grow 1`. -/
def engS1 : EngState Nat :=
  ⟨some (.mk (GeneticNodeWrapper.new Nat 1 0) none none), [], 1⟩

/-- After spawning the root's `Initialize` step. -/
def engS2 : EngState Nat :=
  ⟨some (.mk (GeneticNodeWrapper.new Nat 1 0) none none),
   [⟨some 0, .Simulate, 1, 1, 0⟩], 1⟩

/-- After joining: the root is in `Simulate`. -/
def engS3 : EngState Nat :=
  ⟨some (.mk ⟨some 0, .Simulate, 1, 1, 0⟩ none none), [], 1⟩

/-- After spawning the root's `Simulate` step (which finishes it). -/
def engS4 : EngState Nat :=
  ⟨some (.mk ⟨some 0, .Simulate, 1, 1, 0⟩ none none),
   [⟨some 1, .Finish, 1, 1, 0⟩], 1⟩

/-- After joining: the root is `Finish`. -/
def engS5 : EngState Nat :=
  ⟨some (.mk ⟨some 1, .Finish, 1, 1, 0⟩ none none), [], 1⟩

/-- After growing the completed tree by one more level. -/
def engGrown : EngState Nat :=
  ⟨(increaseHeight engS5.tree 1 1 engS5.ctr).1, engS5.pending,
   (increaseHeight engS5.tree 1 1 engS5.ctr).2⟩

/-- Witness for C9: in the concrete run that finishes node 0 and then grows
the tree, node 0 stays `Finish` (and present) after the growth step. -/
theorem engine_finish_permanent_witness :
    0 ∈ idsO engGrown.tree ∧ FinishedAt 0 engGrown.tree := by
  have h1 : EngStep natImpl 1 (engInit Nat) engS1 :=
    EngStep.grow (engInit Nat) 1 (Or.inl rfl)
  have h2 : EngStep natImpl 1 engS1 engS2 :=
    EngStep.spawn engS1 (.mk (GeneticNodeWrapper.new Nat 1 0) none none)
      (GeneticNodeWrapper.new Nat 1 0) ⟨some 0, .Simulate, 1, 1, 0⟩
      rfl rfl rfl
  have h3 : EngStep natImpl 1 engS2 engS3 :=
    EngStep.join engS2 (.mk (GeneticNodeWrapper.new Nat 1 0) none none)
      rfl (by simp [engS2])
  have h4 : EngStep natImpl 1 engS3 engS4 :=
    EngStep.spawn engS3 (.mk ⟨some 0, .Simulate, 1, 1, 0⟩ none none)
      ⟨some 0, .Simulate, 1, 1, 0⟩ ⟨some 1, .Finish, 1, 1, 0⟩
      rfl rfl rfl
  have h5 : EngStep natImpl 1 engS4 engS5 :=
    EngStep.join engS4 (.mk ⟨some 0, .Simulate, 1, 1, 0⟩ none none)
      rfl (by simp [engS4])
  have hreach : Relation.ReflTransGen (EngStep natImpl 1) (engInit Nat) engS5 :=
    Relation.ReflTransGen.tail
      (Relation.ReflTransGen.tail
        (Relation.ReflTransGen.tail
          (Relation.ReflTransGen.tail
            (Relation.ReflTransGen.tail Relation.ReflTransGen.refl h1) h2) h3) h4) h5
  have hstep : EngStep natImpl 1 engS5 engGrown :=
    EngStep.grow engS5 1
      (Or.inr ⟨.mk ⟨some 1, .Finish, 1, 1, 0⟩ none none, rfl, rfl⟩)
  refine engine_finish_permanent natImpl 1 engS5 engGrown 0 hreach hstep
    (by decide) ?_
  intro n hn hid
  simp only [engS5, nodesOfO, nodesOf, List.mem_singleton] at hn
  rw [hn]

end Gemla
